import Mathlib

/-!
Verification of the bird-server / bird-protocol binary codec kernel.

The Rust sources are shallowly embedded: machine integers are modelled as
`Nat` (unsigned two's-complement representatives) or `Int` (signed values),
with wrapping made explicit by `% 2^w`.  All arithmetic models the semantics
of a release build (overflow checks off): an overlong shift amount is masked
to the bit width of the left operand, exactly as rustc compiles `<<` and
`>>` when debug assertions are disabled.  Byte cursors (`&[u8]`) are lists
of byte values; a read returns the result together with the cursor state
after the call, mirroring the in-place mutation of the Rust cursor.
-/

namespace Bird

/-- Interpretation of a `w`-bit unsigned representative as a signed
two's-complement value (the meaning of `as i32` / `as i64` applied to the
corresponding unsigned type). -/
def toSigned (w : Nat) (n : Nat) : Int :=
  if n < 2 ^ (w - 1) then (n : Int) else (n : Int) - 2 ^ w

/-- Unsigned `w`-bit representative of a signed integer: the meaning of
`as u32` / `as u64` / `as usize` applied to a signed value (two's
complement, i.e. reduction mod `2^w`). -/
def toUnsigned (w : Nat) (i : Int) : Nat :=
  (i % ((2 ^ w : Nat) : Int)).toNat

/-- Big-endian byte string of the low `k` bytes of `n`, as produced by the
Rust `to_be_bytes` on a `k`-byte integer. -/
def beBytes : Nat → Nat → List Nat
  | 0, _ => []
  | k + 1, n => (n >>> (8 * k)) % 256 :: beBytes k n

/-- Value of a big-endian byte string, as computed by `from_be_bytes`. -/
def fromBeBytes (bs : List Nat) : Nat :=
  bs.foldl (fun acc b => acc * 256 + b) 0

/-- ProtocolError from src/bird-protocol/src/lib.rs: cursor exhaustion
(`End`) or any other error carrying a message (`Any`). -/
inductive ProtocolError where
  | End : ProtocolError
  | Any : String → ProtocolError
deriving DecidableEq

/-- take_byte of the cursor impl for byte slices
(src/bird-protocol/src/pub_impls.rs): on an empty cursor the call fails
with `End` and the cursor is not advanced; otherwise the first byte is
removed and returned. -/
def take_byte (c : List Nat) : Except ProtocolError Nat × List Nat :=
  match c with
  | [] => (.error .End, [])
  | b :: rest => (.ok b, rest)

/-- take_bytes of the cursor impl for byte slices
(src/bird-protocol/src/pub_impls.rs): if `has_bytes length` (that is,
`length <= remaining_bytes`) the first `length` bytes are split off,
otherwise the call fails with `End` and the cursor is untouched. -/
def take_bytes (c : List Nat) (length : Nat) : Except ProtocolError (List Nat) × List Nat :=
  if length ≤ c.length then (.ok (c.take length), c.drop length)
  else (.error .End, c)

/-- Release-build semantics of the Rust expression `b << pos` at type `u8`:
the shift amount is masked to the bit width (8) and the result truncated to
8 bits.  (A debug build panics when `pos >= 8`.) -/
def u8shl (b pos : Nat) : Nat :=
  (b <<< (pos % 8)) % 256

/-- Loop body of `read_variant` from the `var_number_impl` macro
(src/bird-protocol/src/impls.rs, lines 191-207).  `width` is the bit width
of the signed target type; `value` is the accumulator (an unsigned
representative of the signed accumulator) and `position` the current group
offset.  Note: the source computes `(current_byte & 0x7F) << position` at
type `u8` before casting to the signed type, so the shift happens inside a
single byte. -/
def read_var_loop (width : Nat) : List Nat → Nat → Nat → Except ProtocolError Nat × List Nat
  | [], _, _ => (.error .End, [])
  | b :: rest, value, position =>
    let value := value ||| u8shl (b &&& 0x7F) position
    if b &&& 0x80 == 0 then (.ok value, rest)
    else if width ≤ position + 7 then (.error (.Any "Var number is too big"), rest)
    else read_var_loop width rest value (position + 7)

/-- VarInt read_variant for i32 (var_number_impl in
src/bird-protocol/src/impls.rs): run the group loop with a 32-bit bound and
interpret the accumulator as i32. -/
def read_VarInt (c : List Nat) : Except ProtocolError Int × List Nat :=
  match read_var_loop 32 c 0 0 with
  | (.ok v, rest) => (.ok (toSigned 32 v), rest)
  | (.error e, rest) => (.error e, rest)

/-- VarLong read_variant for i64 (var_number_impl in
src/bird-protocol/src/impls.rs). -/
def read_VarLong (c : List Nat) : Except ProtocolError Int × List Nat :=
  match read_var_loop 64 c 0 0 with
  | (.ok v, rest) => (.ok (toSigned 64 v), rest)
  | (.error e, rest) => (.error e, rest)

/-- Loop of `write_variant` from the `var_number_impl` macro
(src/bird-protocol/src/impls.rs, lines 210-223), on the unsigned
reinterpretation `obj` of the value.  While `obj & !0x7F` is nonzero
(`!0x7F` at width `w` is `2^w - 128`) the low seven bits are emitted with
the continuation bit; the loop consumes at least seven bits per step, so a
fuel of `width` steps is never exhausted for `obj < 2^width`. -/
def write_var_loop (width : Nat) : Nat → Nat → List Nat
  | 0, _ => []
  | fuel + 1, obj =>
    if obj &&& (2 ^ width - 128) == 0 then [obj % 256]
    else ((obj % 256) &&& 0x7F ||| 0x80) :: write_var_loop width fuel (obj >>> 7)

/-- VarInt write_variant for i32: loop on the `u32` reinterpretation. -/
def write_VarInt (v : Int) : List Nat :=
  write_var_loop 32 32 (toUnsigned 32 v)

/-- VarLong write_variant for i64: loop on the `u64` reinterpretation. -/
def write_VarLong (v : Int) : List Nat :=
  write_var_loop 64 64 (toUnsigned 64 v)

/-- UTF-8 validity of a byte string (the check performed by
`std::str::from_utf8`), following the RFC 3629 byte-range table. -/
def utf8Valid : List Nat → Bool
  | [] => true
  | b :: rest =>
    if b ≤ 0x7F then utf8Valid rest
    else if 0xC2 ≤ b ∧ b ≤ 0xDF then
      match rest with
      | c1 :: r => if 0x80 ≤ c1 ∧ c1 ≤ 0xBF then utf8Valid r else false
      | [] => false
    else if 0xE0 ≤ b ∧ b ≤ 0xEF then
      match rest with
      | c1 :: c2 :: r =>
        if (if b = 0xE0 then 0xA0 ≤ c1 ∧ c1 ≤ 0xBF
            else if b = 0xED then 0x80 ≤ c1 ∧ c1 ≤ 0x9F
            else 0x80 ≤ c1 ∧ c1 ≤ 0xBF) ∧ 0x80 ≤ c2 ∧ c2 ≤ 0xBF
        then utf8Valid r else false
      | _ => false
    else if 0xF0 ≤ b ∧ b ≤ 0xF4 then
      match rest with
      | c1 :: c2 :: c3 :: r =>
        if (if b = 0xF0 then 0x90 ≤ c1 ∧ c1 ≤ 0xBF
            else if b = 0xF4 then 0x80 ≤ c1 ∧ c1 ≤ 0x8F
            else 0x80 ≤ c1 ∧ c1 ≤ 0xBF) ∧ 0x80 ≤ c2 ∧ c2 ≤ 0xBF ∧ 0x80 ≤ c3 ∧ c3 ≤ 0xBF
        then utf8Valid r else false
      | _ => false
    else false

/-- DEFAULT_LIMIT from src/bird-protocol/src/impls.rs. -/
def DEFAULT_LIMIT : Nat := 32767

/-- CHAT_LIMIT from src/bird-protocol/src/impls.rs. -/
def CHAT_LIMIT : Nat := 262144

/-- write_str_with_limit (src/bird-protocol/src/impls.rs, lines 321-332):
the string is modelled by its UTF-8 byte list `s`; if the byte length is
within LIMIT, a VarInt prefix of the byte length (as i32) is written
followed by the bytes; otherwise the write fails with the "Too long string"
error and nothing is written. -/
def write_str_with_limit (LIMIT : Nat) (s : List Nat) : Except ProtocolError (List Nat) :=
  if s.length ≤ LIMIT then .ok (write_VarInt (toSigned 32 (s.length % 2 ^ 32)) ++ s)
  else .error (.Any "Too long string")

/-- read_str_with_limit (src/bird-protocol/src/impls.rs, lines 334-343):
read a VarInt length, cast it to usize (`length as usize`, i.e. sign-extend
i32 to i64 and reinterpret), compare against LIMIT, and on success take
that many bytes and validate them as UTF-8. -/
def read_str_with_limit (LIMIT : Nat) (c : List Nat) : Except ProtocolError (List Nat) × List Nat :=
  match read_VarInt c with
  | (.ok length, c1) =>
    let lengthU := toUnsigned 64 length
    if lengthU ≤ LIMIT then
      match take_bytes c1 lengthU with
      | (.ok bs, c2) => if utf8Valid bs then (.ok bs, c2) else (.error (.Any "Utf8Error"), c2)
      | (.error e, c2) => (.error e, c2)
    else (.error (.Any "Too long string"), c1)
  | (.error e, c1) => (.error e, c1)

/-- Packed u64 wire value of BlockPosition::write_variant for
Vector3D of i32 (src/bird-protocol/src/impls.rs, lines 936-943):
`((x as i64 & 0x3FFFFFF) << 38) | ((z as i64 & 0x3FFFFFF) << 12) |
(y as i64 & 0xFFF)`, as the unsigned representative of the written i64. -/
def blockPositionValue (x y z : Int) : Nat :=
  ((toUnsigned 64 x &&& 0x3FFFFFF) <<< 38 ||| (toUnsigned 64 z &&& 0x3FFFFFF) <<< 12
    ||| (toUnsigned 64 y &&& 0xFFF)) % 2 ^ 64

/-- BlockPosition::write_variant: the packed i64 written with to_be_bytes
(eight big-endian bytes). -/
def blockPositionWrite (x y z : Int) : List Nat :=
  beBytes 8 (blockPositionValue x y z)

/-- BlockPosition::read_variant (src/bird-protocol/src/impls.rs, lines
966-983): read a big-endian u64, extract the 26/12/26-bit fields as i32,
and sign-extend each by the explicit comparisons of the source. -/
def blockPositionRead (c : List Nat) : Except ProtocolError (Int × Int × Int) × List Nat :=
  match take_bytes c 8 with
  | (.ok bs, c1) =>
    let value := fromBeBytes bs
    let x := toSigned 32 ((value >>> 38) % 2 ^ 32)
    let y := toSigned 32 ((value &&& 0xFFF) % 2 ^ 32)
    let z := toSigned 32 (((value >>> 12) &&& 0x3FFFFFF) % 2 ^ 32)
    let x := if 0x2000000 ≤ x then x - 0x4000000 else x
    let y := if 0x800 ≤ y then y - 0x1000 else y
    let z := if 0x2000000 ≤ z then z - 0x4000000 else z
    (.ok (x, y, z), c1)
  | (.error e, c1) => (.error e, c1)

/-- Reduction of the 64-bit representative to a narrower power of two:
`toUnsigned 64 x % 2 ^ k = toUnsigned k x` for `k ≤ 64`. -/
lemma toUnsigned64_mod (x : Int) (k : Nat) (hk : k ≤ 64) :
    toUnsigned 64 x % 2 ^ k = toUnsigned k x := by
  unfold toUnsigned
  have hdvd : ((2 ^ k : Nat) : Int) ∣ ((2 ^ 64 : Nat) : Int) := by
    exact_mod_cast pow_dvd_pow (2 : Int) hk
  have h1 : x % ((2 ^ 64 : Nat) : Int) % ((2 ^ k : Nat) : Int) = x % ((2 ^ k : Nat) : Int) :=
    Int.emod_emod_of_dvd x hdvd
  have h2 : (0 : Int) ≤ x % ((2 ^ 64 : Nat) : Int) := by
    apply Int.emod_nonneg
    positivity
  have h4 : (0 : Int) ≤ x % ((2 ^ k : Nat) : Int) := Int.emod_nonneg x (by positivity)
  have h3 : (((x % ((2 ^ 64 : Nat) : Int)).toNat % 2 ^ k : Nat) : Int)
      = (((x % ((2 ^ k : Nat) : Int)).toNat : Nat) : Int) := by
    rw [Int.natCast_mod, Int.toNat_of_nonneg h2, Int.toNat_of_nonneg h4]
    exact_mod_cast h1
  exact_mod_cast h3

/-- Decomposition of the packed BlockPosition value into its fields. -/
lemma blockPositionValue_eq (x y z : Int) :
    blockPositionValue x y z
      = toUnsigned 26 x * 2 ^ 38 + toUnsigned 26 z * 2 ^ 12 + toUnsigned 12 y := by
  unfold blockPositionValue
  have m26 : (0x3FFFFFF : Nat) = 2 ^ 26 - 1 := by decide
  have m12 : (0xFFF : Nat) = 2 ^ 12 - 1 := by decide
  rw [m26, m12, Nat.and_pow_two_sub_one_eq_mod, Nat.and_pow_two_sub_one_eq_mod,
    Nat.and_pow_two_sub_one_eq_mod, toUnsigned64_mod x 26 (by omega),
    toUnsigned64_mod z 26 (by omega), toUnsigned64_mod y 12 (by omega)]
  set X := toUnsigned 26 x with hX
  set Z := toUnsigned 26 z with hZ
  set Y := toUnsigned 12 y with hY
  have hXlt : X < 2 ^ 26 := by
    rw [hX]; unfold toUnsigned; omega
  have hZlt : Z < 2 ^ 26 := by
    rw [hZ]; unfold toUnsigned; omega
  have hYlt : Y < 2 ^ 12 := by
    rw [hY]; unfold toUnsigned; omega
  have h1 : X <<< 38 ||| Z <<< 12 = X * 2 ^ 38 + Z * 2 ^ 12 := by
    rw [Nat.shiftLeft_eq, Nat.shiftLeft_eq, Nat.mul_comm X]
    rw [← Nat.mul_add_lt_is_or (b := Z * 2 ^ 12) (by nlinarith) X]
  have h2 : (X * 2 ^ 38 + Z * 2 ^ 12) ||| Y = X * 2 ^ 38 + Z * 2 ^ 12 + Y := by
    have hrw : X * 2 ^ 38 + Z * 2 ^ 12 = 2 ^ 12 * (X * 2 ^ 26 + Z) := by ring
    rw [hrw, ← Nat.mul_add_lt_is_or (b := Y) (by omega) (X * 2 ^ 26 + Z)]
  rw [h1, h2]
  apply Nat.mod_eq_of_lt
  nlinarith

/-- Big-endian round trip for eight bytes. -/
lemma fromBeBytes_beBytes8 (n : Nat) (h : n < 2 ^ 64) :
    fromBeBytes (beBytes 8 n) = n := by
  simp only [beBytes, fromBeBytes, List.foldl, Nat.shiftRight_eq_div_pow]
  norm_num
  omega

/-- Length of an eight-byte big-endian string. -/
lemma beBytes8_length (n : Nat) : (beBytes 8 n).length = 8 := by
  simp [beBytes]

/-- Sign extension from 26 bits recovers values in the signed 26-bit
range. -/
lemma signExtend26 (x : Int) (h1 : -33554432 ≤ x) (h2 : x ≤ 33554431) :
    (if (0x2000000 : Int) ≤ ((toUnsigned 26 x : Nat) : Int)
      then ((toUnsigned 26 x : Nat) : Int) - 0x4000000
      else ((toUnsigned 26 x : Nat) : Int)) = x := by
  unfold toUnsigned
  split <;> omega

/-- Sign extension from 12 bits recovers values in the signed 12-bit
range. -/
lemma signExtend12 (y : Int) (h1 : -2048 ≤ y) (h2 : y ≤ 2047) :
    (if (0x800 : Int) ≤ ((toUnsigned 12 y : Nat) : Int)
      then ((toUnsigned 12 y : Nat) : Int) - 0x1000
      else ((toUnsigned 12 y : Nat) : Int)) = y := by
  unfold toUnsigned
  split <;> omega

/-- Exact rational value of the f32 constant std::f32::consts::PI
(bit pattern 0x40490FDB): 13176795 / 2^22. -/
def PI32 : ℚ := 13176795 / 4194304

/-- Rust `v as u8` applied to an f32: truncate toward zero and saturate
into [0, 255] (NaN, which cannot arise below, maps to 0). -/
def f32_as_u8 (q : ℚ) : Nat :=
  if q < 0 then 0 else min 255 (Int.toNat ⌊q⌋)

/-- Angle write_variant for f32 (src/bird-protocol/src/impls.rs, lines
690-693): `(a * 256.0 / PI) as u8`.  The f32 arithmetic is modelled over
ℚ; for the inputs used in the theorems below every intermediate f32 result
is exactly representable (scaling by 256 is a power-of-two shift of the
exponent and the divisions come out exact), so the rational model agrees
with the IEEE computation there. -/
def angle_write_variant (a : ℚ) : Nat :=
  f32_as_u8 (a * 256 / PI32)

/-- Angle read_variant for f32 (src/bird-protocol/src/impls.rs, lines
696-700): `(b as f32) * PI / 256.0`, exact in f32 for every byte b. -/
def angle_read_variant (b : Nat) : ℚ :=
  (b : ℚ) * PI32 / 256

/-- NBT tag constants (src/bird-protocol/src/nbt.rs, lines 92-104). -/
def NBT_TAG_END : Nat := 0

/-- NBT tag of Int payloads. -/
def NBT_TAG_INT : Nat := 3

/-- write_nbt of an i32 (nbt.rs, inherit_from_default_protocol macro):
delegates to the plain big-endian i32 write. -/
def write_nbt_i32 (v : Int) : List Nat :=
  beBytes 4 (toUnsigned 32 v)

/-- write_nbt of Vec of T (src/bird-protocol/src/nbt.rs, lines 323-331):
the static element tag T::NBT_TAG is written first — also when the vector
is empty — then the length as a big-endian i32, then the elements. -/
def vec_write_nbt {α : Type} (elemTag : Nat) (elemWrite : α → List Nat) (xs : List α) : List Nat :=
  [elemTag] ++ beBytes 4 (xs.length % 2 ^ 32) ++ (xs.map elemWrite).flatten

/-- read_nbt of an i32: four big-endian bytes. -/
def read_nbt_i32 (c : List Nat) : Except ProtocolError Int × List Nat :=
  match take_bytes c 4 with
  | (.ok bs, c1) => (.ok (toSigned 32 (fromBeBytes bs)), c1)
  | (.error e, c1) => (.error e, c1)

/-- read_nbt of a u8: one byte. -/
def read_nbt_u8 (c : List Nat) : Except ProtocolError Nat × List Nat :=
  match take_bytes c 1 with
  | (.ok bs, c1) => (.ok (fromBeBytes bs), c1)
  | (.error e, c1) => (.error e, c1)

/-- Element loop of Vec::read_nbt for i32 elements. -/
def read_nbt_i32_loop : Nat → List Nat → Except ProtocolError (List Int) × List Nat
  | 0, c => (.ok [], c)
  | n + 1, c =>
    match read_nbt_i32 c with
    | (.ok v, c1) =>
      match read_nbt_i32_loop n c1 with
      | (.ok vs, c2) => (.ok (v :: vs), c2)
      | (.error e, c2) => (.error e, c2)
    | (.error e, c1) => (.error e, c1)

/-- read_nbt of Vec of i32 (src/bird-protocol/src/nbt.rs, lines 333-343):
read the tag byte and the i32 length; a non-positive length returns the
empty vector before the tag byte is checked against T::NBT_TAG. -/
def vec_i32_read_nbt (c : List Nat) : Except ProtocolError (List Int) × List Nat :=
  match read_nbt_u8 c with
  | (.ok tag, c1) =>
    match read_nbt_i32 c1 with
    | (.ok len, c2) =>
      if len ≤ 0 then (.ok [], c2)
      else if tag ≠ NBT_TAG_INT then (.error (.Any "Bad nbt tag"), c2)
      else read_nbt_i32_loop (Int.toNat len) c2
    | (.error e, c2) => (.error e, c2)
  | (.error e, c1) => (.error e, c1)

/-- State of GapCompactLongsWriter (src/bird-server/src/protocol.rs, lines
1233-1301): the pending long `current`, the element index inside it, and —
standing in for the borrowed ProtocolWriter — the list `out` of whole u64
words written so far (each word reaches the byte sink as eight big-endian
bytes via u64::write). -/
structure GapCompactLongsWriterState where
  current : Nat
  current_index : Nat
  out : List Nat
deriving DecidableEq

/-- GapCompactLongsWriter::write: flush the pending long when it is full,
then or the new value in at offset `current_index * bits + gap`, where
`gap = 64 % bits` (the unused low bits of every long).  The u64 shift is
modelled with release-build masking. -/
def gap_write (bits : Nat) (st : GapCompactLongsWriterState) (number : Nat) :
    GapCompactLongsWriterState :=
  let elements_in_long := 64 / bits
  let gap := 64 % bits
  let st1 := if st.current_index = elements_in_long
    then { current := 0, current_index := 0, out := st.out ++ [st.current] }
    else st
  { current := st1.current ||| ((number <<< ((st1.current_index * bits + gap) % 64)) % 2 ^ 64),
    current_index := st1.current_index + 1,
    out := st1.out }

/-- GapCompactLongsWriter::write_all: fold write over the iterator. -/
def gap_write_all (bits : Nat) (st : GapCompactLongsWriterState) (vs : List Nat) :
    GapCompactLongsWriterState :=
  vs.foldl (gap_write bits) st

/-- GapCompactLongsWriter::finish: write the last partial long unless the
writer sits exactly on a long boundary. -/
def gap_finish (st : GapCompactLongsWriterState) : List Nat :=
  if st.current_index ≠ 0 then st.out ++ [st.current] else st.out

/-- State of GapCompactLongsReader (src/bird-server/src/protocol.rs, lines
1303-1359), generic over the backing u64 iterator, exactly as the source
is generic over I: Iterator with u64 items.  An iterator is a state type
`I` together with a step function passed separately. -/
structure GapCompactLongsReaderState (I : Type) where
  iterator : I
  current_long : Nat
  next_long : Option Nat
  current_index : Nat
  end_index : Nat

/-- GapCompactLongsReader::new with COUNT = `count`: pull the first long,
pre-shift it by the gap, pull the lookahead long, and fix the index at
which the final long stops yielding. -/
def gap_reader_new {I : Type} (inext : I → Option (Nat × I)) (it : I) (bits count : Nat) :
    Option (GapCompactLongsReaderState I) :=
  let gap := 64 % bits
  let elements_in_long := 64 / bits
  match inext it with
  | none => none
  | some (l, it1) =>
    match inext it1 with
    | none =>
      some { iterator := it1, current_long := l >>> gap, next_long := none,
             current_index := 0,
             end_index := if count % elements_in_long = 0 then elements_in_long
               else count % elements_in_long }
    | some (n, it2) =>
      some { iterator := it2, current_long := l >>> gap, next_long := some n,
             current_index := 0,
             end_index := if count % elements_in_long = 0 then elements_in_long
               else count % elements_in_long }

/-- Iterator::next of GapCompactLongsReader: stop once the lookahead is
exhausted and the final index is reached; roll to the lookahead long when
the current one is drained (the source uses unwrap_unchecked there — the
`none` arm of that match is unreachable, modelled as 0); then emit the
masked low `bits` bits and shift them out.  The u64 shifts carry the
release-build masking of the shift amount. -/
def gap_reader_next {I : Type} (inext : I → Option (Nat × I)) (bits : Nat)
    (st : GapCompactLongsReaderState I) : Option (Nat × GapCompactLongsReaderState I) :=
  let elements_in_long := 64 / bits
  let gap := 64 % bits
  let mask := (1 <<< (bits % 64)) - 1
  if st.next_long = none ∧ st.current_index = st.end_index then none
  else
    let st1 :=
      if st.current_index = elements_in_long then
        { iterator := match inext st.iterator with | none => st.iterator | some p => p.2,
          current_long := (match st.next_long with | some n => n | none => 0) >>> gap,
          next_long := match inext st.iterator with | none => none | some p => some p.1,
          current_index := 0,
          end_index := st.end_index }
      else st
    some (st1.current_long &&& mask,
      { st1 with current_long := st1.current_long >>> (bits % 64),
                 current_index := st1.current_index + 1 })

/-- Collecting the reader's items (Iterator::collect), with explicit fuel;
every use below supplies enough fuel for the stream to reach its end. -/
def gap_reader_collect {I : Type} (inext : I → Option (Nat × I)) (bits : Nat) :
    Nat → GapCompactLongsReaderState I → List Nat
  | 0, _ => []
  | fuel + 1, st =>
    match gap_reader_next inext bits st with
    | none => []
    | some (v, st1) => v :: gap_reader_collect inext bits fuel st1

/-- The iterator over a borrowed u64 slice (BorrowedLongArray::Longs /
Vec::into_iter): the step function of a plain list. -/
def list_iter_next : List Nat → Option (Nat × List Nat)
  | [] => none
  | x :: xs => some (x, xs)

/-- compact_longs_array_length (src/bird-server/src/protocol.rs, lines
1363-1367). -/
def compact_longs_array_length (elements bits : Nat) : Nat :=
  let elements_in_long := 64 / bits
  elements / elements_in_long + (if elements % elements_in_long = 0 then 0 else 1)

/-- Specification view of one packed long before the gap shift: element k
of the chunk sits at bit offset k * bits. -/
def packChunk (bits : Nat) (c : List Nat) : Nat :=
  c.foldr (fun v acc => v + acc * 2 ^ bits) 0

/-- Split a list into chunks of E elements (fuel-driven). -/
def chunksF (E : Nat) : Nat → List Nat → List (List Nat)
  | 0, _ => []
  | _, [] => []
  | fuel + 1, vs => vs.take E :: chunksF E fuel (vs.drop E)

/-- The longs carrying a chunk list: each chunk packed and shifted above
the gap. -/
def packWords (bits : Nat) (cs : List (List Nat)) : List Nat :=
  cs.map (fun c => packChunk bits c * 2 ^ (64 % bits))

/-- Shape invariant of a chunk split: nonempty, all chunks but the last of
length exactly E, the last nonempty and of length at most E. -/
def ProperChunks (E : Nat) : List (List Nat) → Prop
  | [] => False
  | [c] => c ≠ [] ∧ c.length ≤ E
  | c :: c2 :: cs => c.length = E ∧ ProperChunks E (c2 :: cs)

/-- Length of the last chunk. -/
def lastLen : List (List Nat) → Nat
  | [] => 0
  | [c] => c.length
  | _ :: c2 :: cs => lastLen (c2 :: cs)

/-- take_bytes over the whole cursor succeeds and empties it. -/
lemma take_bytes_exact (c : List Nat) (n : Nat) (h : c.length = n) :
    take_bytes c n = (.ok c, []) := by
  subst h
  unfold take_bytes
  simp

/-- Range of the unsigned representative. -/
lemma toUnsigned_lt (w : Nat) (i : Int) : toUnsigned w i < 2 ^ w := by
  unfold toUnsigned
  have h1 : i % ((2 ^ w : Nat) : Int) < ((2 ^ w : Nat) : Int) :=
    Int.emod_lt_of_pos i (by positivity)
  have h2 : (0 : Int) ≤ i % ((2 ^ w : Nat) : Int) := Int.emod_nonneg i (by positivity)
  omega

/-- u8::read: one byte via take_bytes (number_impl macro,
src/bird-protocol/src/impls.rs). -/
def read_u8 (c : List Nat) : Except ProtocolError Nat × List Nat :=
  match take_bytes c 1 with
  | (.ok bs, c1) => (.ok (fromBeBytes bs), c1)
  | (.error e, c1) => (.error e, c1)

/-- i32::read: four big-endian bytes. -/
def read_i32 (c : List Nat) : Except ProtocolError Int × List Nat :=
  match take_bytes c 4 with
  | (.ok bs, c1) => (.ok (toSigned 32 (fromBeBytes bs)), c1)
  | (.error e, c1) => (.error e, c1)

/-- u64::read: eight big-endian bytes. -/
def read_u64 (c : List Nat) : Except ProtocolError Nat × List Nat :=
  match take_bytes c 8 with
  | (.ok bs, c1) => (.ok (fromBeBytes bs), c1)
  | (.error e, c1) => (.error e, c1)

/-- Element loop of LengthFunctionArray::read_variant for i32 elements
(src/bird-protocol/src/impls.rs, lines 586-598). -/
def read_i32_loop : Nat → List Nat → Except ProtocolError (List Int) × List Nat
  | 0, c => (.ok [], c)
  | n + 1, c =>
    match read_i32 c with
    | (.ok v, c1) =>
      match read_i32_loop n c1 with
      | (.ok vs, c2) => (.ok (v :: vs), c2)
      | (.error e, c2) => (.error e, c2)
    | (.error e, c1) => (.error e, c1)

/-- LengthProvidedArray of i32 with a VarInt-i32 length: read the VarInt
length, cast it to usize, and read that many i32 values. -/
def length_provided_i32_array_read (c : List Nat) :
    Except ProtocolError (List Int) × List Nat :=
  match read_VarInt c with
  | (.ok l, c1) => read_i32_loop (toUnsigned 64 l) c1
  | (.error e, c1) => (.error e, c1)

/-- ProtocolCursorIterator over u64 items with a
ProtocolCursorIteratorCountLimiter (src/bird-protocol/src/impls.rs, lines
1023-1066): the limiter counts down first; a read error ends the stream
(an Any error panics only under debug assertions; the release build maps
it to None like End).  A failed u64 read consumes nothing, so the cursor
inside the state stays accurate. -/
def cursor_u64_iter_next : Nat × List Nat → Option (Nat × (Nat × List Nat))
  | (cnt, c) =>
    if cnt = 0 then none
    else
      match read_u64 c with
      | (.ok v, c1) => some (v, (cnt - 1, c1))
      | (.error _, _) => none

/-- Collect that also returns the final reader state, so the cursor
position after the drain is observable. -/
def gap_reader_collect2 {I : Type} (inext : I → Option (Nat × I)) (bits : Nat) :
    Nat → GapCompactLongsReaderState I → List Nat × GapCompactLongsReaderState I
  | 0, st => ([], st)
  | fuel + 1, st =>
    match gap_reader_next inext bits st with
    | none => ([], st)
    | some (v, st1) =>
      match gap_reader_collect2 inext bits fuel st1 with
      | (vs, st2) => (v :: vs, st2)

/-- PalettedContainerInner (src/bird-server/src/protocol.rs, lines
1467-1472). -/
inductive PalettedContainerInner where
  | Single (value : Int)
  | Indirect (values : List Int) (indexes : List Int)
  | Direct (values : List Int)
deriving DecidableEq

/-- PalettedContainer::write (src/bird-server/src/protocol.rs, lines
1519-1539), parameterised by the bits determiner T::get, MAX_BITS and
LENGTH exactly as the source is generic over them.  Whole u64 longs reach
the byte writer as eight big-endian bytes each. -/
def paletted_container_write (bits_det : Nat → Nat) (max_bits LENGTH : Nat) :
    PalettedContainerInner → List Nat
  | .Single single => [0] ++ write_VarInt single ++ write_VarInt 0
  | .Indirect values indexes =>
    let bits_per_entry := bits_det values.length
    [bits_per_entry % 256]
      ++ write_VarInt (toSigned 32 (values.length % 2 ^ 32))
      ++ (values.map (fun v => beBytes 4 (toUnsigned 32 v))).flatten
      ++ write_VarInt (toSigned 32 (compact_longs_array_length LENGTH bits_per_entry % 2 ^ 32))
      ++ ((gap_finish (gap_write_all bits_per_entry ⟨0, 0, []⟩
            (indexes.map (toUnsigned 64)))).map (beBytes 8)).flatten
  | .Direct direct =>
    [max_bits % 256]
      ++ write_VarInt (toSigned 32 (compact_longs_array_length LENGTH max_bits % 2 ^ 32))
      ++ ((gap_finish (gap_write_all max_bits ⟨0, 0, []⟩
            (direct.map (toUnsigned 64)))).map (beBytes 8)).flatten

/-- PalettedContainer::read (src/bird-server/src/protocol.rs, lines
1545-1596): bits byte, then the Single (bits = 0), Indirect
(bits < MAX_BITS) or Direct branch.  The indirect/direct branches build a
GapCompactLongsReader over a count-limited u64 cursor iterator, collect it
(the fuel LENGTH + 1 suffices for every terminating stream and makes any
longer stream fail the length check, as collect + try_into does), and
check the collected length against LENGTH. -/
def paletted_container_read (max_bits LENGTH : Nat) (c : List Nat) :
    Except ProtocolError PalettedContainerInner × List Nat :=
  match read_u8 c with
  | (.ok bits, c1) =>
    if bits = 0 then
      match read_VarInt c1 with
      | (.ok single, c2) =>
        match read_VarInt c2 with
        | (.ok _, c3) => (.ok (.Single single), c3)
        | (.error e, c3) => (.error e, c3)
      | (.error e, c2) => (.error e, c2)
    else if bits < max_bits then
      match length_provided_i32_array_read c1 with
      | (.ok values, c2) =>
        match read_VarInt c2 with
        | (.ok count, c3) =>
          match gap_reader_new cursor_u64_iter_next (toUnsigned 64 count, c3) bits LENGTH with
          | none => (.error (.Any "Empty array in paletted container (indirect variant)"), c3)
          | some st0 =>
            match gap_reader_collect2 cursor_u64_iter_next bits (LENGTH + 1) st0 with
            | (collected, stF) =>
              if collected.length = LENGTH then
                (.ok (.Indirect values (collected.map (fun v => toSigned 32 (v % 2 ^ 32)))),
                  stF.iterator.2)
              else (.error (.Any "Bad length of indexes"), stF.iterator.2)
        | (.error e, c3) => (.error e, c3)
      | (.error e, c2) => (.error e, c2)
    else
      match read_VarInt c1 with
      | (.ok count, c2) =>
        match gap_reader_new cursor_u64_iter_next (toUnsigned 64 count, c2) max_bits LENGTH with
        | none => (.error (.Any "Empty array in paletted container (direct variant)"), c2)
        | some st0 =>
          match gap_reader_collect2 cursor_u64_iter_next max_bits (LENGTH + 1) st0 with
          | (collected, stF) =>
            if collected.length = LENGTH then
              (.ok (.Direct (collected.map (fun v => toSigned 32 (v % 2 ^ 32)))),
                stF.iterator.2)
            else (.error (.Any "Bad length of direct"), stF.iterator.2)
      | (.error e, c2) => (.error e, c2)
  | (.error e, c1) => (.error e, c1)

/-! ## Compact-longs packer lemmas -/

/-- A single write inside a chunk: no flush, the value lands at its bit
offset. -/
lemma gap_write_absorb (b : Nat) (hb : 0 < b) (hb32 : b ≤ 32) (cur j v : Nat) (out : List Nat)
    (hj : j < 64 / b) (hcur : cur < 2 ^ (j * b + 64 % b)) (hv : v < 2 ^ b) :
    gap_write b ⟨cur, j, out⟩ v
      = ⟨cur + v * 2 ^ (j * b + 64 % b), j + 1, out⟩ := by
  have hEg : b * (64 / b) + 64 % b = 64 := Nat.div_add_mod 64 b
  have hsucc : j + 1 ≤ 64 / b := hj
  have hmul : (j + 1) * b ≤ (64 / b) * b := Nat.mul_le_mul_right b hsucc
  have hle : (j + 1) * b + 64 % b ≤ 64 := by
    rw [Nat.mul_comm (64 / b) b] at hmul
    omega
  have hslt : j * b + 64 % b < 64 := by nlinarith
  simp only [gap_write]
  rw [if_neg (by omega : ¬ j = 64 / b)]
  have hmod : (j * b + 64 % b) % 64 = j * b + 64 % b := Nat.mod_eq_of_lt hslt
  have hshift : (v <<< ((j * b + 64 % b) % 64)) % 2 ^ 64 = v * 2 ^ (j * b + 64 % b) := by
    rw [hmod, Nat.shiftLeft_eq]
    apply Nat.mod_eq_of_lt
    calc v * 2 ^ (j * b + 64 % b) < 2 ^ b * 2 ^ (j * b + 64 % b) := by
          have hp : 0 < 2 ^ (j * b + 64 % b) := Nat.pos_pow_of_pos _ (by omega)
          exact Nat.mul_lt_mul_of_lt_of_le hv (Nat.le_refl _) hp
      _ = 2 ^ (b + (j * b + 64 % b)) := by rw [← pow_add]
      _ ≤ 2 ^ 64 := Nat.pow_le_pow_right (by omega) (by nlinarith)
  have hor : cur ||| v * 2 ^ (j * b + 64 % b) = cur + v * 2 ^ (j * b + 64 % b) := by
    rw [Nat.lor_comm, Nat.mul_comm v]
    rw [← Nat.mul_add_lt_is_or hcur v]
    ring
  simp only [hshift, hor]

/-- Absorbing a whole chunk into the pending long. -/
lemma gap_write_chunk (b : Nat) (hb : 0 < b) (hb32 : b ≤ 32) :
    ∀ (c : List Nat) (j cur : Nat) (out : List Nat), j + c.length ≤ 64 / b →
      cur < 2 ^ (j * b + 64 % b) → (∀ v ∈ c, v < 2 ^ b) →
      gap_write_all b ⟨cur, j, out⟩ c
        = ⟨cur + packChunk b c * 2 ^ (j * b + 64 % b), j + c.length, out⟩ := by
  intro c
  induction c with
  | nil =>
    intro j cur out h1 h2 h3
    simp [gap_write_all, packChunk]
  | cons v c ih =>
    intro j cur out h1 h2 h3
    have hlen : (v :: c).length = c.length + 1 := rfl
    have hj : j < 64 / b := by omega
    have hv : v < 2 ^ b := h3 v (by simp)
    have hstep : gap_write_all b ⟨cur, j, out⟩ (v :: c)
        = gap_write_all b (gap_write b ⟨cur, j, out⟩ v) c := rfl
    rw [hstep, gap_write_absorb b hb hb32 cur j v out hj h2 hv]
    have hexp : (j + 1) * b + 64 % b = (j * b + 64 % b) + b := by ring
    have key : 2 ^ ((j + 1) * b + 64 % b) = 2 ^ (j * b + 64 % b) * 2 ^ b := by
      rw [hexp, pow_add]
    have hcur2 : cur + v * 2 ^ (j * b + 64 % b) < 2 ^ ((j + 1) * b + 64 % b) := by
      rw [key]
      have h4 : v + 1 ≤ 2 ^ b := hv
      nlinarith [Nat.mul_le_mul_left (2 ^ (j * b + 64 % b)) h4, h2]
    rw [ih (j + 1) _ out (by omega) hcur2 (fun w hw => h3 w (by simp [hw]))]
    have hfield1 : cur + v * 2 ^ (j * b + 64 % b) + packChunk b c * 2 ^ ((j + 1) * b + 64 % b)
        = cur + packChunk b (v :: c) * 2 ^ (j * b + 64 % b) := by
      rw [key, show packChunk b (v :: c) = v + packChunk b c * 2 ^ b from rfl]
      ring
    have hfield2 : j + 1 + c.length = j + (v :: c).length := by
      rw [List.length_cons]
      omega
    rw [hfield1, hfield2]

/-- Upper bound of a packed chunk. -/
lemma packChunk_lt (b : Nat) :
    ∀ (c : List Nat), (∀ v ∈ c, v < 2 ^ b) → packChunk b c < 2 ^ (c.length * b) := by
  intro c
  induction c with
  | nil => simp [packChunk]
  | cons v c ih =>
    intro h
    have hv : v < 2 ^ b := h v (by simp)
    have hP : packChunk b c < 2 ^ (c.length * b) := ih (fun w hw => h w (by simp [hw]))
    have hpack : packChunk b (v :: c) = v + packChunk b c * 2 ^ b := rfl
    have hlen : (v :: c).length * b = c.length * b + b := by simp [List.length_cons]; ring
    rw [hpack, hlen, pow_add]
    nlinarith

/-- Writing onto a full long flushes it first. -/
lemma gap_write_all_flush (b : Nat) (hb : 0 < b) (hb64 : b ≤ 64) (w : Nat) (out : List Nat)
    (rest : List Nat) (hrest : rest ≠ []) :
    gap_write_all b ⟨w, 64 / b, out⟩ rest = gap_write_all b ⟨0, 0, out ++ [w]⟩ rest := by
  have hE1 : 1 ≤ 64 / b := (Nat.one_le_div_iff hb).mpr hb64
  cases rest with
  | nil => exact absurd rfl hrest
  | cons r rs =>
    show gap_write_all b (gap_write b ⟨w, 64 / b, out⟩ r) rs
        = gap_write_all b (gap_write b ⟨0, 0, out ++ [w]⟩ r) rs
    congr 1
    simp [gap_write, (show ¬ ((0 : Nat) = 64 / b) from by omega)]

/-- chunksF of the empty list. -/
lemma chunksF_nil (E : Nat) : ∀ fuel, chunksF E fuel [] = [] := by
  intro fuel
  cases fuel <;> rfl

/-- The full writer run produces exactly the packed chunk words. -/
lemma gap_writer_run (b : Nat) (hb : 0 < b) (hb32 : b ≤ 32) :
    ∀ (fuel : Nat) (vs : List Nat) (out : List Nat), vs.length ≤ fuel → vs ≠ [] →
      (∀ v ∈ vs, v < 2 ^ b) →
      gap_finish (gap_write_all b ⟨0, 0, out⟩ vs)
        = out ++ packWords b (chunksF (64 / b) fuel vs) := by
  intro fuel
  induction fuel with
  | zero =>
    intro vs out h1 h2 h3
    cases vs with
    | nil => exact absurd rfl h2
    | cons v vs => simp at h1
  | succ fuel ih =>
    intro vs out h1 h2 h3
    have hE1 : 1 ≤ 64 / b := (Nat.one_le_div_iff hb).mpr (by omega)
    have hg : 0 < 2 ^ ((0 : Nat) * b + 64 % b) := Nat.pos_pow_of_pos _ (by omega)
    by_cases hsplit : vs.length ≤ 64 / b
    · have hchunk := gap_write_chunk b hb hb32 vs 0 0 out (by omega) hg h3
      rw [hchunk]
      have hpos : 0 < vs.length := List.length_pos.mpr h2
      simp only [gap_finish]
      rw [if_pos (show (0 : Nat) + vs.length ≠ 0 from by omega)]
      have hdrop : vs.drop (64 / b) = [] := List.drop_eq_nil_of_le hsplit
      have htake : vs.take (64 / b) = vs := List.take_of_length_le hsplit
      cases vs with
      | nil => exact absurd rfl h2
      | cons v vs0 =>
        show out ++ [0 + packChunk b (v :: vs0) * 2 ^ (0 * b + 64 % b)] = _
        rw [show chunksF (64 / b) (fuel + 1) (v :: vs0)
            = (v :: vs0).take (64 / b) :: chunksF (64 / b) fuel ((v :: vs0).drop (64 / b))
            from rfl]
        rw [htake, hdrop, chunksF_nil]
        simp [packWords]
    · push_neg at hsplit
      have htake : (vs.take (64 / b)).length = 64 / b := by
        rw [List.length_take]
        omega
      have hdroplen : (vs.drop (64 / b)).length = vs.length - 64 / b := List.length_drop _ _
      have hdropne : vs.drop (64 / b) ≠ [] := by
        intro h
        rw [h] at hdroplen
        simp at hdroplen
        omega
      have hsplitall : vs.take (64 / b) ++ vs.drop (64 / b) = vs := List.take_append_drop _ _
      have hfold : gap_write_all b ⟨0, 0, out⟩ vs
          = gap_write_all b (gap_write_all b ⟨0, 0, out⟩ (vs.take (64 / b))) (vs.drop (64 / b)) := by
        unfold gap_write_all
        rw [← List.foldl_append, hsplitall]
      have hchunk := gap_write_chunk b hb hb32 (vs.take (64 / b)) 0 0 out
        (by omega) hg (fun w hw => h3 w (List.take_subset _ _ hw))
      rw [hfold, hchunk]
      rw [show ((0 : Nat) + packChunk b (vs.take (64 / b)) * 2 ^ (0 * b + 64 % b))
          = packChunk b (vs.take (64 / b)) * 2 ^ (64 % b) from by simp]
      rw [show (0 : Nat) + (vs.take (64 / b)).length = 64 / b from by rw [htake]; simp]
      rw [gap_write_all_flush b hb (by omega) _ out _ hdropne]
      rw [ih (vs.drop (64 / b)) _ (by omega) hdropne (fun w hw => h3 w (List.drop_subset _ _ hw))]
      cases hvs : vs with
      | nil => exact absurd hvs h2
      | cons v vs0 =>
        rw [show chunksF (64 / b) (fuel + 1) (v :: vs0)
            = (v :: vs0).take (64 / b) :: chunksF (64 / b) fuel ((v :: vs0).drop (64 / b)) from rfl]
        rw [← hvs]
        simp [packWords]

/-- Joining the chunks gives back the list. -/
lemma chunksF_join (E : Nat) (hE : 0 < E) :
    ∀ (fuel : Nat) (vs : List Nat), vs.length ≤ fuel →
      (chunksF E fuel vs).flatten = vs := by
  intro fuel
  induction fuel with
  | zero =>
    intro vs h1
    cases vs with
    | nil => rfl
    | cons v vs => simp at h1
  | succ fuel ih =>
    intro vs h1
    cases vs with
    | nil => rfl
    | cons v vs0 =>
      show ((v :: vs0).take E :: chunksF E fuel ((v :: vs0).drop E)).flatten = v :: vs0
      rw [List.flatten_cons]
      rw [ih ((v :: vs0).drop E) (by simp only [List.length_drop, List.length_cons]; simp only [List.length_cons] at h1; omega)]
      exact List.take_append_drop E (v :: vs0)

/-- Chunking a nonempty list is nonempty. -/
lemma chunksF_ne_nil (E : Nat) :
    ∀ (fuel : Nat) (vs : List Nat), vs.length ≤ fuel → vs ≠ [] →
      chunksF E fuel vs ≠ [] := by
  intro fuel vs h1 h2
  cases fuel with
  | zero =>
    cases vs with
    | nil => exact absurd rfl h2
    | cons v vs => simp at h1
  | succ fuel =>
    cases vs with
    | nil => exact absurd rfl h2
    | cons v vs0 => simp [chunksF]

/-- The chunk split satisfies the shape invariant. -/
lemma chunksF_proper (E : Nat) (hE : 0 < E) :
    ∀ (fuel : Nat) (vs : List Nat), vs.length ≤ fuel → vs ≠ [] →
      ProperChunks E (chunksF E fuel vs) := by
  intro fuel
  induction fuel with
  | zero =>
    intro vs h1 h2
    cases vs with
    | nil => exact absurd rfl h2
    | cons v vs => simp at h1
  | succ fuel ih =>
    intro vs h1 h2
    cases vs with
    | nil => exact absurd rfl h2
    | cons v vs0 =>
      show ProperChunks E ((v :: vs0).take E :: chunksF E fuel ((v :: vs0).drop E))
      by_cases hsplit : (v :: vs0).length ≤ E
      · have hdrop : (v :: vs0).drop E = [] := List.drop_eq_nil_of_le hsplit
        have htake : (v :: vs0).take E = v :: vs0 := List.take_of_length_le hsplit
        rw [hdrop, chunksF_nil, htake]
        exact ⟨h2, hsplit⟩
      · push_neg at hsplit
        have hdropne : (v :: vs0).drop E ≠ [] := by
          intro h
          have := congrArg List.length h
          simp only [List.length_drop, List.length_cons, List.length_nil] at this
          simp only [List.length_cons] at hsplit
          omega
        have hrest := ih ((v :: vs0).drop E) (by simp only [List.length_drop, List.length_cons]; simp only [List.length_cons] at h1; omega) hdropne
        obtain ⟨c2, cs, heq⟩ := List.exists_cons_of_ne_nil
          (chunksF_ne_nil E fuel ((v :: vs0).drop E) (by simp only [List.length_drop, List.length_cons]; simp only [List.length_cons] at h1; omega) hdropne)
        rw [heq]
        rw [heq] at hrest
        exact ⟨by rw [List.length_take]; omega, hrest⟩

/-- Number of chunks produced by the split. -/
lemma chunksF_length (E : Nat) (hE : 0 < E) :
    ∀ (fuel : Nat) (vs : List Nat), vs.length ≤ fuel →
      (chunksF E fuel vs).length
        = vs.length / E + (if vs.length % E = 0 then 0 else 1) := by
  intro fuel
  induction fuel with
  | zero =>
    intro vs h1
    cases vs with
    | nil => simp [chunksF, Nat.zero_div, Nat.zero_mod]
    | cons v vs => simp at h1
  | succ fuel ih =>
    intro vs h1
    cases vs with
    | nil => simp [chunksF, Nat.zero_div, Nat.zero_mod]
    | cons v vs0 =>
      show ((v :: vs0).take E :: chunksF E fuel ((v :: vs0).drop E)).length = _
      rw [List.length_cons,
        ih ((v :: vs0).drop E)
          (by simp only [List.length_drop, List.length_cons]; simp only [List.length_cons] at h1; omega),
        List.length_drop]
      have hLpos : 0 < (v :: vs0).length := by simp
      by_cases hsplit : (v :: vs0).length ≤ E
      · have hdz : (v :: vs0).length - E = 0 := by omega
        rw [hdz, Nat.zero_div, Nat.zero_mod]
        rcases Nat.lt_or_ge (v :: vs0).length E with hlt | hge
        · have d1 : (v :: vs0).length / E = 0 := Nat.div_eq_of_lt hlt
          have m1 : (v :: vs0).length % E = (v :: vs0).length := Nat.mod_eq_of_lt hlt
          rw [d1, m1, if_pos rfl, if_neg (show ¬((v :: vs0).length = 0) from by omega)]
        · have heqE : (v :: vs0).length = E := by omega
          rw [heqE, Nat.div_self hE, Nat.mod_self, if_pos rfl]
      · push_neg at hsplit
        have hdiv : (v :: vs0).length / E = ((v :: vs0).length - E) / E + 1 :=
          Nat.div_eq_sub_div hE (by omega)
        have hmod : (v :: vs0).length % E = ((v :: vs0).length - E) % E :=
          Nat.mod_eq_sub_mod (by omega)
        rw [hdiv, hmod]
        omega

/-- Length of the last chunk of the split. -/
lemma chunksF_lastLen (E : Nat) (hE : 0 < E) :
    ∀ (fuel : Nat) (vs : List Nat), vs.length ≤ fuel → vs ≠ [] →
      lastLen (chunksF E fuel vs)
        = if vs.length % E = 0 then E else vs.length % E := by
  intro fuel
  induction fuel with
  | zero =>
    intro vs h1 h2
    cases vs with
    | nil => exact absurd rfl h2
    | cons v vs => simp at h1
  | succ fuel ih =>
    intro vs h1 h2
    cases vs with
    | nil => exact absurd rfl h2
    | cons v vs0 =>
      show lastLen ((v :: vs0).take E :: chunksF E fuel ((v :: vs0).drop E)) = _
      have hlpos : 0 < (v :: vs0).length := by simp
      by_cases hsplit : (v :: vs0).length ≤ E
      · have hdrop : (v :: vs0).drop E = [] := List.drop_eq_nil_of_le hsplit
        have htake : (v :: vs0).take E = v :: vs0 := List.take_of_length_le hsplit
        rw [hdrop, chunksF_nil, htake]
        show (v :: vs0).length = _
        rcases Nat.lt_or_ge (v :: vs0).length E with hlt | hge
        · rw [Nat.mod_eq_of_lt hlt, if_neg (by omega)]
        · have heqE : (v :: vs0).length = E := by omega
          rw [heqE, Nat.mod_self, if_pos rfl]
      · push_neg at hsplit
        have hdropne : (v :: vs0).drop E ≠ [] := by
          intro h
          have := congrArg List.length h
          simp only [List.length_drop, List.length_cons, List.length_nil] at this
          simp only [List.length_cons] at hsplit
          omega
        obtain ⟨c2, cs, heq⟩ := List.exists_cons_of_ne_nil
          (chunksF_ne_nil E fuel ((v :: vs0).drop E) (by simp only [List.length_drop, List.length_cons]; simp only [List.length_cons] at h1; omega) hdropne)
        rw [heq]
        show lastLen (c2 :: cs) = _
        rw [← heq, ih ((v :: vs0).drop E) (by simp only [List.length_drop, List.length_cons]; simp only [List.length_cons] at h1; omega) hdropne]
        rw [List.length_drop]
        have hmod : (v :: vs0).length % E = ((v :: vs0).length - E) % E :=
          Nat.mod_eq_sub_mod (by omega)
        rw [hmod]

/-- Value bounds carry over to every chunk. -/
lemma chunksF_mem_bound (E b : Nat) :
    ∀ (fuel : Nat) (vs : List Nat), (∀ v ∈ vs, v < 2 ^ b) →
      ∀ c ∈ chunksF E fuel vs, ∀ v ∈ c, v < 2 ^ b := by
  intro fuel
  induction fuel with
  | zero =>
    intro vs h c hc
    cases vs <;> simp [chunksF] at hc
  | succ fuel ih =>
    intro vs h c hc
    cases vs with
    | nil => simp [chunksF] at hc
    | cons v vs0 =>
      rw [show chunksF E (fuel + 1) (v :: vs0)
          = (v :: vs0).take E :: chunksF E fuel ((v :: vs0).drop E) from rfl] at hc
      rcases List.mem_cons.mp hc with hceq | hcmem
      · subst hceq
        exact fun w hw => h w (List.take_subset _ _ hw)
      · exact ih ((v :: vs0).drop E) (fun w hw => h w (List.drop_subset _ _ hw)) c hcmem

/-- Ceiling-division identity for the word count. -/
lemma ceil_div_identity (len E : Nat) (hE : 0 < E) :
    len / E + (if len % E = 0 then 0 else 1) = (len + E - 1) / E := by
  obtain ⟨q, r, hr, hqr⟩ : ∃ q r, r < E ∧ len = E * q + r :=
    ⟨len / E, len % E, Nat.mod_lt _ hE, (Nat.div_add_mod len E).symm⟩
  subst hqr
  have hdivq : (E * q + r) / E = q + r / E := Nat.mul_add_div hE q r
  have hmodr : (E * q + r) % E = r := by
    rw [Nat.mul_add_mod]
    exact Nat.mod_eq_of_lt hr
  rw [hdivq, hmodr, Nat.div_eq_of_lt hr]
  by_cases h : r = 0
  · subst h
    rw [if_pos rfl]
    have : E * q + 0 + E - 1 = E * q + (E - 1) := by omega
    rw [this, Nat.mul_add_div hE q (E - 1), Nat.div_eq_of_lt (by omega)]
  · rw [if_neg h]
    have : E * q + r + E - 1 = E * (q + 1) + (r - 1) := by ring_nf; omega
    rw [this, Nat.mul_add_div hE (q + 1) (r - 1), Nat.div_eq_of_lt (by omega)]

/-- Collecting from a stopped reader yields nothing. -/
lemma gap_reader_collect_stop {I : Type} (inext : I → Option (Nat × I)) (b : Nat)
    (st : GapCompactLongsReaderState I) (h : gap_reader_next inext b st = none) :
    ∀ fuel, gap_reader_collect inext b fuel st = [] := by
  intro fuel
  cases fuel with
  | zero => rfl
  | succ fuel => simp only [gap_reader_collect, h]

/-- States with equal next steps collect equal streams. -/
lemma gap_reader_collect_congr {I : Type} (inext : I → Option (Nat × I)) (b : Nat)
    (st1 st2 : GapCompactLongsReaderState I)
    (h : gap_reader_next inext b st1 = gap_reader_next inext b st2) :
    ∀ fuel, gap_reader_collect inext b fuel st1 = gap_reader_collect inext b fuel st2 := by
  intro fuel
  cases fuel with
  | zero => rfl
  | succ fuel => simp only [gap_reader_collect, h]

/-- A reader whose lookahead is gone and whose index reached the end stops. -/
lemma gap_reader_next_stop {I : Type} (inext : I → Option (Nat × I)) (b : Nat) (it : I)
    (cur k : Nat) :
    gap_reader_next inext b ⟨it, cur, none, k, k⟩ = none := by
  simp [gap_reader_next]

/-- Draining the current long: a packed chunk comes back value by value. -/
lemma gap_reader_drain (b : Nat) (hb : 0 < b) (hb32 : b ≤ 32) :
    ∀ (c : List Nat) (it : List Nat) (nl : Option Nat) (j e fuel : Nat),
      (∀ v ∈ c, v < 2 ^ b) → j + c.length ≤ 64 / b →
      (nl = none → j + c.length ≤ e) →
      gap_reader_collect list_iter_next b (c.length + fuel) ⟨it, packChunk b c, nl, j, e⟩
        = c ++ gap_reader_collect list_iter_next b fuel ⟨it, 0, nl, j + c.length, e⟩ := by
  intro c
  induction c with
  | nil =>
    intro it nl j e fuel h1 h2 h3
    simp [packChunk]
  | cons v c ih =>
    intro it nl j e fuel h1 h2 h3
    have hv : v < 2 ^ b := h1 v (by simp)
    rw [List.length_cons] at h2
    have hmask : ((1 : Nat) <<< (b % 64)) - 1 = 2 ^ b - 1 := by
      rw [Nat.mod_eq_of_lt (by omega), Nat.shiftLeft_eq, one_mul]
    have hpk : packChunk b (v :: c) = v + packChunk b c * 2 ^ b := rfl
    have hextract : packChunk b (v :: c) &&& (2 ^ b - 1) = v := by
      rw [Nat.and_pow_two_sub_one_eq_mod, hpk, Nat.add_mul_mod_self_right,
        Nat.mod_eq_of_lt hv]
    have hshiftout : packChunk b (v :: c) >>> (b % 64) = packChunk b c := by
      rw [Nat.mod_eq_of_lt (show b < 64 by omega), Nat.shiftRight_eq_div_pow, hpk,
        Nat.add_mul_div_right _ _ (Nat.pos_pow_of_pos _ (by omega)),
        Nat.div_eq_of_lt hv, Nat.zero_add]
    have hcond : ¬(nl = none ∧ j = e) := by
      rintro ⟨hn, hj⟩
      have := h3 hn
      rw [List.length_cons] at this
      omega
    have hstep : gap_reader_next list_iter_next b ⟨it, packChunk b (v :: c), nl, j, e⟩
        = some (v, ⟨it, packChunk b c, nl, j + 1, e⟩) := by
      simp only [gap_reader_next]
      rw [if_neg hcond, if_neg (show ¬(j = 64 / b) from by omega)]
      simp only [hmask, hextract, hshiftout]
    have harith : (v :: c).length + fuel = (c.length + fuel) + 1 := by
      rw [List.length_cons]
      omega
    rw [harith]
    simp only [gap_reader_collect, hstep]
    rw [ih it nl (j + 1) e fuel (fun w hw => h1 w (by simp [hw])) (by omega)
      (by intro hn; have := h3 hn; rw [List.length_cons] at this; omega)]
    rw [show j + (v :: c).length = j + 1 + c.length from by rw [List.length_cons]; omega]
    rfl

/-- Stepping a reader sitting on a full long equals stepping the rolled
reader. -/
lemma gap_reader_next_roll (b : Nat) (hb : 0 < b) (hb64 : b ≤ 64) (it : List Nat)
    (w e cur : Nat) (he : 0 < e) :
    gap_reader_next list_iter_next b ⟨it, cur, some w, 64 / b, e⟩
      = gap_reader_next list_iter_next b ⟨it.tail, w >>> (64 % b), it.head?, 0, e⟩ := by
  have hE1 : 1 ≤ 64 / b := (Nat.one_le_div_iff hb).mpr hb64
  cases it with
  | nil =>
    simp [gap_reader_next, list_iter_next, (show ¬((0 : Nat) = e) from by omega),
      (show ¬((0 : Nat) = 64 / b) from by omega)]
  | cons n ns =>
    simp [gap_reader_next, list_iter_next, (show ¬((0 : Nat) = 64 / b) from by omega)]

/-- Every proper chunk list ends in a nonempty chunk. -/
lemma properChunks_lastLen_pos (E : Nat) :
    ∀ cs, ProperChunks E cs → 0 < lastLen cs := by
  intro cs
  induction cs with
  | nil => intro h; exact h.elim
  | cons c cs ih =>
    intro h
    cases cs with
    | nil =>
      have hlen := List.length_pos.mpr h.1
      simpa [lastLen] using hlen
    | cons c2 cs2 => exact ih h.2

/-- The reader reproduces a proper chunk list laid out as packed words. -/
lemma gap_reader_run (b : Nat) (hb : 0 < b) (hb32 : b ≤ 32) :
    ∀ (cs : List (List Nat)) (c0 : List Nat) (extra e : Nat),
      ProperChunks (64 / b) (c0 :: cs) →
      (∀ v ∈ c0, v < 2 ^ b) → (∀ c ∈ cs, ∀ v ∈ c, v < 2 ^ b) →
      e = lastLen (c0 :: cs) →
      gap_reader_collect list_iter_next b ((c0 :: cs).flatten.length + extra)
          ⟨(packWords b cs).tail, packChunk b c0, (packWords b cs).head?, 0, e⟩
        = (c0 :: cs).flatten := by
  intro cs
  induction cs with
  | nil =>
    intro c0 extra e hp h0 hcs he
    have hlen : c0.length ≤ 64 / b := hp.2
    have hee : e = c0.length := he
    have hflat : ([c0] : List (List Nat)).flatten = c0 := by simp
    rw [hflat]
    rw [show packWords b ([] : List (List Nat)) = [] from rfl]
    simp only [List.tail_nil, List.head?_nil]
    rw [gap_reader_drain b hb hb32 c0 [] none 0 e extra h0 (by omega) (fun _ => by omega)]
    rw [show (0 : Nat) + c0.length = e from by omega]
    rw [gap_reader_collect_stop _ _ _ (gap_reader_next_stop _ _ _ _ _) extra, List.append_nil]
  | cons c1 cs ih =>
    intro c0 extra e hp h0 hcs he
    have hE1 : 1 ≤ 64 / b := (Nat.one_le_div_iff hb).mpr (by omega)
    have hc0len : c0.length = 64 / b := hp.1
    have hp1 : ProperChunks (64 / b) (c1 :: cs) := hp.2
    have hepos : 0 < e := he ▸ properChunks_lastLen_pos (64 / b) (c0 :: c1 :: cs) hp
    have hpw : packWords b (c1 :: cs)
        = (packChunk b c1 * 2 ^ (64 % b)) :: packWords b cs := rfl
    have hfuel : ((c0 :: c1 :: cs).flatten).length + extra
        = c0.length + (((c1 :: cs).flatten).length + extra) := by
      rw [List.flatten_cons, List.length_append]
      omega
    rw [hfuel, hpw]
    simp only [List.tail_cons, List.head?_cons]
    rw [gap_reader_drain b hb hb32 c0 (packWords b cs)
      (some (packChunk b c1 * 2 ^ (64 % b))) 0 e (((c1 :: cs).flatten).length + extra)
      h0 (by omega) (fun hn => absurd hn (by simp))]
    rw [show (0 : Nat) + c0.length = 64 / b from by omega]
    rw [gap_reader_collect_congr list_iter_next b _ _
      (gap_reader_next_roll b hb (by omega) (packWords b cs)
        (packChunk b c1 * 2 ^ (64 % b)) e 0 hepos)
      (((c1 :: cs).flatten).length + extra)]
    have hshift : (packChunk b c1 * 2 ^ (64 % b)) >>> (64 % b) = packChunk b c1 := by
      rw [Nat.shiftRight_eq_div_pow]
      exact Nat.mul_div_cancel _ (Nat.pos_pow_of_pos _ (by omega))
    rw [hshift]
    rw [ih c1 extra e hp1 (hcs c1 (by simp)) (fun c hc w hw => hcs c (by simp [hc]) w hw) he]
    simp [List.flatten_cons]

/-- Shape of gap_reader_new over a nonempty word list. -/
lemma gap_reader_new_cons (b count w0 : Nat) (pw : List Nat) :
    gap_reader_new list_iter_next (w0 :: pw) b count
      = some ⟨pw.tail, w0 >>> (64 % b), pw.head?, 0,
          if count % (64 / b) = 0 then 64 / b else count % (64 / b)⟩ := by
  cases pw <;> rfl

/-! ## Claims C1, C2, C8, C10 -/

/-- C5: for any bit width in (0, 32] (covering the claimed set 4, 5, 6, 9,
15) and any nonempty sequence of values below 2^bits (covering every
claimed element count N), writing with GapCompactLongsWriter and reading
back with GapCompactLongsReader at COUNT = N reproduces the sequence, and
the number of 64-bit words written is ceil(N / floor(64/bits)), the value
of compact_longs_array_length. -/
theorem c5_compact_longs_roundtrip (bits : Nat) (vs : List Nat)
    (hb : 0 < bits) (hb32 : bits ≤ 32) (hne : vs ≠ []) (hv : ∀ v ∈ vs, v < 2 ^ bits) :
    (gap_finish (gap_write_all bits ⟨0, 0, []⟩ vs)).length
        = compact_longs_array_length vs.length bits
    ∧ compact_longs_array_length vs.length bits
        = (vs.length + 64 / bits - 1) / (64 / bits)
    ∧ ∃ st, gap_reader_new list_iter_next (gap_finish (gap_write_all bits ⟨0, 0, []⟩ vs))
          bits vs.length = some st
        ∧ gap_reader_collect list_iter_next bits (vs.length + 1) st = vs := by
  have hE1 : 1 ≤ 64 / bits := (Nat.one_le_div_iff hb).mpr (by omega)
  have hrun := gap_writer_run bits hb hb32 vs.length vs [] le_rfl hne hv
  rw [List.nil_append] at hrun
  have hjoin : (chunksF (64 / bits) vs.length vs).flatten = vs :=
    chunksF_join (64 / bits) (by omega) vs.length vs le_rfl
  have hproper : ProperChunks (64 / bits) (chunksF (64 / bits) vs.length vs) :=
    chunksF_proper (64 / bits) (by omega) vs.length vs le_rfl hne
  have hlastlen : lastLen (chunksF (64 / bits) vs.length vs)
      = if vs.length % (64 / bits) = 0 then 64 / bits else vs.length % (64 / bits) :=
    chunksF_lastLen (64 / bits) (by omega) vs.length vs le_rfl hne
  have hchlen : (chunksF (64 / bits) vs.length vs).length
      = vs.length / (64 / bits) + (if vs.length % (64 / bits) = 0 then 0 else 1) :=
    chunksF_length (64 / bits) (by omega) vs.length vs le_rfl
  have hbound : ∀ c ∈ chunksF (64 / bits) vs.length vs, ∀ v ∈ c, v < 2 ^ bits :=
    chunksF_mem_bound (64 / bits) bits vs.length vs hv
  refine ⟨?_, ?_, ?_⟩
  · rw [hrun]
    simp only [packWords, List.length_map, hchlen]
    rfl
  · rw [show compact_longs_array_length vs.length bits
        = vs.length / (64 / bits) + (if vs.length % (64 / bits) = 0 then 0 else 1) from rfl]
    exact ceil_div_identity vs.length (64 / bits) (by omega)
  · have hne2 : chunksF (64 / bits) vs.length vs ≠ [] :=
      chunksF_ne_nil (64 / bits) vs.length vs le_rfl hne
    obtain ⟨c0, cs, hdecomp⟩ := List.exists_cons_of_ne_nil hne2
    rw [hrun, hdecomp]
    rw [show packWords bits (c0 :: cs)
        = (packChunk bits c0 * 2 ^ (64 % bits)) :: packWords bits cs from rfl]
    rw [gap_reader_new_cons]
    refine ⟨_, rfl, ?_⟩
    have hw0 : (packChunk bits c0 * 2 ^ (64 % bits)) >>> (64 % bits) = packChunk bits c0 := by
      rw [Nat.shiftRight_eq_div_pow]
      exact Nat.mul_div_cancel _ (Nat.pos_pow_of_pos _ (by omega))
    rw [hw0]
    have he2 : (if vs.length % (64 / bits) = 0 then 64 / bits else vs.length % (64 / bits))
        = lastLen (c0 :: cs) := by
      rw [← hdecomp, hlastlen]
    rw [he2]
    have hflen : (c0 :: cs).flatten.length = vs.length := by
      rw [← hdecomp, hjoin]
    rw [show vs.length + 1 = (c0 :: cs).flatten.length + 1 from by rw [hflen]]
    rw [gap_reader_run bits hb hb32 cs c0 1 (lastLen (c0 :: cs)) (hdecomp ▸ hproper)
      (fun w hw => hbound c0 (by rw [hdecomp]; simp) w hw)
      (fun c hc w hw => hbound c (by rw [hdecomp]; simp [hc]) w hw) rfl]
    rw [← hdecomp, hjoin]

/-- Witness for C5 at bits = 5 with thirteen values (one more than a full
long holds, so the stream crosses a word boundary). -/
theorem c5_compact_longs_roundtrip_witness :
    (0 < 5 ∧ 5 ≤ 32
      ∧ ([1, 2, 3, 4, 5, 6, 7, 8, 9, 10, 11, 12, 13] : List Nat) ≠ []
      ∧ (∀ v ∈ ([1, 2, 3, 4, 5, 6, 7, 8, 9, 10, 11, 12, 13] : List Nat), v < 2 ^ 5))
    ∧ ((gap_finish (gap_write_all 5 ⟨0, 0, []⟩ [1, 2, 3, 4, 5, 6, 7, 8, 9, 10, 11, 12, 13])).length
        = compact_longs_array_length 13 5
      ∧ compact_longs_array_length 13 5 = (13 + 64 / 5 - 1) / (64 / 5)
      ∧ ∃ st, gap_reader_new list_iter_next
            (gap_finish (gap_write_all 5 ⟨0, 0, []⟩ [1, 2, 3, 4, 5, 6, 7, 8, 9, 10, 11, 12, 13]))
            5 13 = some st
          ∧ gap_reader_collect list_iter_next 5 14 st
              = [1, 2, 3, 4, 5, 6, 7, 8, 9, 10, 11, 12, 13]) :=
  ⟨⟨by decide, by decide, by decide, by decide⟩,
   c5_compact_longs_roundtrip 5 [1, 2, 3, 4, 5, 6, 7, 8, 9, 10, 11, 12, 13]
     (by decide) (by decide) (by decide) (by decide)⟩


/-- C1: the claim states decode(encode(v)) = v for every i32 under the
VarInt codec.  The code violates this: the value 16383 encodes to the two
bytes ff 7f, but decoding those bytes yields 255, because `read_variant`
computes `(current_byte & 0x7F) << position` at type u8, losing every bit
shifted past bit 7 before the cast to i32.  This theorem evaluates the
source model at that failing input. -/
theorem c1_varint_roundtrip_bug :
    write_VarInt 16383 = [0xFF, 0x7F]
    ∧ read_VarInt [0xFF, 0x7F] = (.ok 255, [])
    ∧ (255 : Int) ≠ 16383 :=
  ⟨rfl, rfl, by decide⟩

/-- C2: VarInt encodings of 0, 1, 127, 128, 2097151, 2097152, i32 MIN,
i32 MAX, -1 have lengths 1, 1, 1, 2, 3, 4, 5, 5, 5, and reading an input
whose first five bytes (ten for VarLong) all carry the continuation bit
fails with the "Var number is too big" error. -/
theorem c2_varint_boundaries :
    ((write_VarInt 0).length = 1 ∧ (write_VarInt 1).length = 1
      ∧ (write_VarInt 127).length = 1 ∧ (write_VarInt 128).length = 2
      ∧ (write_VarInt 2097151).length = 3 ∧ (write_VarInt 2097152).length = 4
      ∧ (write_VarInt (-2147483648)).length = 5 ∧ (write_VarInt 2147483647).length = 5
      ∧ (write_VarInt (-1)).length = 5)
    ∧ (∀ b0 b1 b2 b3 b4 rest, b0 &&& 0x80 ≠ 0 → b1 &&& 0x80 ≠ 0 → b2 &&& 0x80 ≠ 0 →
        b3 &&& 0x80 ≠ 0 → b4 &&& 0x80 ≠ 0 →
        read_VarInt ([b0, b1, b2, b3, b4] ++ rest)
          = (.error (.Any "Var number is too big"), rest))
    ∧ (∀ b0 b1 b2 b3 b4 b5 b6 b7 b8 b9 rest, b0 &&& 0x80 ≠ 0 → b1 &&& 0x80 ≠ 0 →
        b2 &&& 0x80 ≠ 0 → b3 &&& 0x80 ≠ 0 → b4 &&& 0x80 ≠ 0 → b5 &&& 0x80 ≠ 0 →
        b6 &&& 0x80 ≠ 0 → b7 &&& 0x80 ≠ 0 → b8 &&& 0x80 ≠ 0 → b9 &&& 0x80 ≠ 0 →
        read_VarLong ([b0, b1, b2, b3, b4, b5, b6, b7, b8, b9] ++ rest)
          = (.error (.Any "Var number is too big"), rest)) := by
  refine ⟨by decide, ?_, ?_⟩
  · intro b0 b1 b2 b3 b4 rest h0 h1 h2 h3 h4
    have e0 : (b0 &&& 0x80 == 0) = false := beq_eq_false_iff_ne.mpr h0
    have e1 : (b1 &&& 0x80 == 0) = false := beq_eq_false_iff_ne.mpr h1
    have e2 : (b2 &&& 0x80 == 0) = false := beq_eq_false_iff_ne.mpr h2
    have e3 : (b3 &&& 0x80 == 0) = false := beq_eq_false_iff_ne.mpr h3
    have e4 : (b4 &&& 0x80 == 0) = false := beq_eq_false_iff_ne.mpr h4
    simp [read_VarInt, read_var_loop, e0, e1, e2, e3, e4]
  · intro b0 b1 b2 b3 b4 b5 b6 b7 b8 b9 rest h0 h1 h2 h3 h4 h5 h6 h7 h8 h9
    have e0 : (b0 &&& 0x80 == 0) = false := beq_eq_false_iff_ne.mpr h0
    have e1 : (b1 &&& 0x80 == 0) = false := beq_eq_false_iff_ne.mpr h1
    have e2 : (b2 &&& 0x80 == 0) = false := beq_eq_false_iff_ne.mpr h2
    have e3 : (b3 &&& 0x80 == 0) = false := beq_eq_false_iff_ne.mpr h3
    have e4 : (b4 &&& 0x80 == 0) = false := beq_eq_false_iff_ne.mpr h4
    have e5 : (b5 &&& 0x80 == 0) = false := beq_eq_false_iff_ne.mpr h5
    have e6 : (b6 &&& 0x80 == 0) = false := beq_eq_false_iff_ne.mpr h6
    have e7 : (b7 &&& 0x80 == 0) = false := beq_eq_false_iff_ne.mpr h7
    have e8 : (b8 &&& 0x80 == 0) = false := beq_eq_false_iff_ne.mpr h8
    have e9 : (b9 &&& 0x80 == 0) = false := beq_eq_false_iff_ne.mpr h9
    simp [read_VarLong, read_var_loop, e0, e1, e2, e3, e4, e5, e6, e7, e8, e9]

/-- Witness for C2: the general overlong-read parts applied at the
all-0x80 inputs. -/
theorem c2_varint_boundaries_witness :
    read_VarInt [0x80, 0x80, 0x80, 0x80, 0x80]
      = (.error (.Any "Var number is too big"), ([] : List Nat))
    ∧ read_VarLong [0x80, 0x80, 0x80, 0x80, 0x80, 0x80, 0x80, 0x80, 0x80, 0x80]
      = (.error (.Any "Var number is too big"), ([] : List Nat)) := by
  constructor
  · have h := c2_varint_boundaries.2.1 0x80 0x80 0x80 0x80 0x80 []
      (by decide) (by decide) (by decide) (by decide) (by decide)
    simpa using h
  · have h := c2_varint_boundaries.2.2 0x80 0x80 0x80 0x80 0x80 0x80 0x80 0x80 0x80 0x80 []
      (by decide) (by decide) (by decide) (by decide) (by decide)
      (by decide) (by decide) (by decide) (by decide) (by decide)
    simpa using h

/-- C8: the claim states that a write beyond the limit fails with
"Too long string" and that a read whose VarInt length prefix exceeds the
limit fails before consuming string bytes.  The write half holds, but the
read half is broken by the same u8-shift defect as C1: the decoded length
is always below 256, so the over-limit branch of read_str_with_limit is
unreachable.  The bytes 80 80 04 are the correct VarInt encoding of 65536
(the code's own writer produces them), 65536 exceeds DEFAULT_LIMIT = 32767,
yet reading them succeeds and returns the empty string, because the code
decodes the prefix as 0. -/
theorem c8_string_limit_bug :
    write_str_with_limit DEFAULT_LIMIT (List.replicate 32768 0) = .error (.Any "Too long string")
    ∧ write_VarInt 65536 = [0x80, 0x80, 0x04]
    ∧ DEFAULT_LIMIT < 65536
    ∧ read_VarInt [0x80, 0x80, 0x04] = (.ok 0, [])
    ∧ read_str_with_limit DEFAULT_LIMIT [0x80, 0x80, 0x04] = (.ok [], []) := by
  refine ⟨?_, rfl, by decide, rfl, ?_⟩
  · rw [write_str_with_limit, List.length_replicate]
    exact if_neg (by decide)
  · rfl

/-- C3: the claim (from the spec's worked example) states that the packed
wire value for (x, y, z) = (1, 2, 3) is 0x0000010000003002, with bytes
00 00 01 00 00 00 30 02.  The code disagrees: (1 << 38) is 0x4000000000,
not 0x10000000000, so the packed value is 0x0000004000003002.  This closed
theorem refutes the claim at that exact input. -/
theorem c3_blockposition_example_counterexample :
    blockPositionValue 1 2 3 ≠ 0x0000010000003002
    ∧ blockPositionWrite 1 2 3 ≠ [0x00, 0x00, 0x01, 0x00, 0x00, 0x00, 0x30, 0x02] := by
  constructor
  · intro h
    have : blockPositionValue 1 2 3 = 0x0000004000003002 := rfl
    omega
  · intro h
    have he : blockPositionWrite 1 2 3 = [0x00, 0x00, 0x00, 0x40, 0x00, 0x00, 0x30, 0x02] := rfl
    rw [he] at h
    exact absurd h (by decide)

/-- C3 amended: encoding the block position (x=1, y=2, z=3) writes the u64
wire value 0x0000004000003002, i.e. the eight big-endian bytes
00 00 00 40 00 00 30 02. -/
theorem c3_blockposition_example :
    blockPositionValue 1 2 3 = 0x0000004000003002
    ∧ blockPositionWrite 1 2 3 = [0x00, 0x00, 0x00, 0x40, 0x00, 0x00, 0x30, 0x02] :=
  ⟨rfl, rfl⟩

/-- C4: the BlockPosition encode/decode round trip is lossless for
x, z in [-33554432, 33554431] and y in [-2048, 2047]. -/
theorem c4_blockposition_roundtrip (x y z : Int)
    (hx1 : -33554432 ≤ x) (hx2 : x ≤ 33554431)
    (hy1 : -2048 ≤ y) (hy2 : y ≤ 2047)
    (hz1 : -33554432 ≤ z) (hz2 : z ≤ 33554431) :
    blockPositionRead (blockPositionWrite x y z) = (.ok (x, y, z), []) := by
  have hV : blockPositionValue x y z < 2 ^ 64 := Nat.mod_lt _ (by norm_num)
  have hX := toUnsigned_lt 26 x
  have hZ := toUnsigned_lt 26 z
  have hY := toUnsigned_lt 12 y
  have hval := blockPositionValue_eq x y z
  have e1 : blockPositionValue x y z >>> 38 = toUnsigned 26 x := by
    rw [Nat.shiftRight_eq_div_pow, hval]
    omega
  have e2 : blockPositionValue x y z &&& 0xFFF = toUnsigned 12 y := by
    rw [show (0xFFF : Nat) = 2 ^ 12 - 1 from rfl, Nat.and_pow_two_sub_one_eq_mod, hval]
    omega
  have e3 : (blockPositionValue x y z >>> 12) &&& 0x3FFFFFF = toUnsigned 26 z := by
    rw [Nat.shiftRight_eq_div_pow, show (0x3FFFFFF : Nat) = 2 ^ 26 - 1 from rfl,
      Nat.and_pow_two_sub_one_eq_mod, hval]
    omega
  unfold blockPositionWrite blockPositionRead
  rw [take_bytes_exact _ _ (beBytes8_length _)]
  simp only [fromBeBytes_beBytes8 _ hV, e1, e2, e3]
  rw [Nat.mod_eq_of_lt (by omega : toUnsigned 26 x < 2 ^ 32),
    Nat.mod_eq_of_lt (by omega : toUnsigned 12 y < 2 ^ 32),
    Nat.mod_eq_of_lt (by omega : toUnsigned 26 z < 2 ^ 32)]
  rw [show toSigned 32 (toUnsigned 26 x) = ((toUnsigned 26 x : Nat) : Int) from by
      unfold toSigned; rw [if_pos (by omega)],
    show toSigned 32 (toUnsigned 12 y) = ((toUnsigned 12 y : Nat) : Int) from by
      unfold toSigned; rw [if_pos (by omega)],
    show toSigned 32 (toUnsigned 26 z) = ((toUnsigned 26 z : Nat) : Int) from by
      unfold toSigned; rw [if_pos (by omega)]]
  rw [signExtend26 x hx1 hx2, signExtend12 y hy1 hy2, signExtend26 z hz1 hz2]

/-- Witness for C4 at the concrete block position (1, 2, 3). -/
theorem c4_blockposition_roundtrip_witness :
    blockPositionRead (blockPositionWrite 1 2 3) = (.ok (1, 2, 3), []) :=
  c4_blockposition_roundtrip 1 2 3 (by decide) (by decide) (by decide) (by decide)
    (by decide) (by decide)

/-- C6: writing a paletted container in the Single form with value 0
emits exactly the bytes 00 00 00 (bits byte 0, VarInt value 0, VarInt data
length 0), and reading those three bytes yields Single(0) again, for every
bits determiner, MAX_BITS and LENGTH (in particular for the block-state
instantiation). -/
theorem c6_paletted_single_zero :
    ∀ (bits_det : Nat → Nat) (max_bits LENGTH : Nat),
      paletted_container_write bits_det max_bits LENGTH (.Single 0) = [0x00, 0x00, 0x00]
      ∧ paletted_container_read max_bits LENGTH [0x00, 0x00, 0x00] = (.ok (.Single 0), []) := by
  intro bits_det max_bits LENGTH
  exact ⟨rfl, rfl⟩

/-- C7: the claim states that encoding π/2 yields 0x40 and that decoding
0x40 yields π/2.  Both are false on the code: a * 256 / π at a = π/2 is
exactly 128, so the encoder emits 0x80; and 0x40 decodes to π/4, which is
off from π/2 by π/4, far beyond the claimed π/256 tolerance.  (Every f32
operation involved is exact, so the rational model is faithful here.) -/
theorem c7_angle_example_counterexample :
    angle_write_variant (PI32 / 2) ≠ 0x40
    ∧ angle_read_variant 0x40 = PI32 / 4
    ∧ ¬(|angle_read_variant 0x40 - PI32 / 2| ≤ PI32 / 256) := by
  refine ⟨?_, ?_, ?_⟩
  · intro h
    have he : angle_write_variant (PI32 / 2) = 0x80 := by
      unfold angle_write_variant f32_as_u8 PI32
      norm_num
      rfl
    omega
  · unfold angle_read_variant PI32
    norm_num
  · unfold angle_read_variant PI32
    intro h
    rw [abs_le] at h
    have h1 := h.1
    norm_num at h1

/-- C7 amended: the Angle variant packs an f32 angle a as
trunc(a * 256 / π) saturated into one byte (not rounded modulo 256), and
reads a byte b back as b * π / 256.  For the f32 value of π/2 the encoder
emits 0x80, and 0x80 decodes exactly to π/2. -/
theorem c7_angle_example :
    angle_write_variant (PI32 / 2) = 0x80
    ∧ angle_read_variant 0x80 = PI32 / 2
    ∧ angle_read_variant (angle_write_variant (PI32 / 2)) = PI32 / 2 := by
  have hw : angle_write_variant (PI32 / 2) = 0x80 := by
    unfold angle_write_variant f32_as_u8 PI32
    norm_num
    rfl
  have hr : angle_read_variant 0x80 = PI32 / 2 := by
    unfold angle_read_variant PI32
    norm_num
  exact ⟨hw, hr, by rw [hw, hr]⟩

/-- C9: the claim states that an empty NBT list encodes tag End (0) as its
element-tag byte.  The code writes the static element tag instead: the
empty Vec of i32 encodes to 03 00 00 00 00, whose tag byte is 3, not 0. -/
theorem c9_empty_list_tag_counterexample :
    vec_write_nbt NBT_TAG_INT write_nbt_i32 ([] : List Int) = [3, 0, 0, 0, 0]
    ∧ (vec_write_nbt NBT_TAG_INT write_nbt_i32 ([] : List Int)).head? = some 3
    ∧ (3 : Nat) ≠ NBT_TAG_END :=
  ⟨rfl, rfl, by decide⟩

/-- C9 amended: an empty list encodes the element type's static tag
followed by a zero i32 length (tag End is never substituted), and the
reader accepts any tag byte when the length is non-positive, returning the
empty list — so the empty-list round trip still holds. -/
theorem c9_empty_list_tag :
    (∀ {α : Type} (t : Nat) (w : α → List Nat),
      vec_write_nbt t w ([] : List α) = t :: [0, 0, 0, 0])
    ∧ vec_i32_read_nbt (vec_write_nbt NBT_TAG_INT write_nbt_i32 ([] : List Int)) = (.ok [], [])
    ∧ (∀ t : Nat, vec_i32_read_nbt (t :: [0, 0, 0, 0]) = (.ok [], [])) := by
  refine ⟨?_, rfl, ?_⟩
  · intro α t w
    unfold vec_write_nbt
    simp [beBytes]
  · intro t
    rfl

/-- C10: for the byte-slice cursor, an End failure of take_byte or
take_bytes leaves the cursor untouched, and a successful take_bytes n
returns exactly n bytes and shrinks the cursor by exactly n. -/
theorem c10_cursor_end_behaviour :
    ∀ (c : List Nat) (n : Nat),
      ((take_byte c).1 = .error .End → (take_byte c).2 = c)
      ∧ ((take_bytes c n).1 = .error .End → (take_bytes c n).2 = c)
      ∧ (∀ r, (take_bytes c n).1 = .ok r →
          r.length = n ∧ (take_bytes c n).2.length + n = c.length) := by
  intro c n
  refine ⟨?_, ?_, ?_⟩
  · cases c with
    | nil => intro _; rfl
    | cons b rest => intro h; simp [take_byte] at h
  · by_cases hn : n ≤ c.length
    · intro h; simp [take_bytes, hn] at h
    · intro _; simp [take_bytes, hn]
  · intro r hr
    by_cases hn : n ≤ c.length
    · simp only [take_bytes, if_pos hn] at hr ⊢
      have hr2 : c.take n = r := by simpa using hr
      subst hr2
      constructor
      · simpa using Nat.min_eq_left hn
      · simp [List.length_drop]; omega
    · simp [take_bytes, hn] at hr

/-- Witness for C10 at concrete inputs: take_byte on the empty cursor and
take_bytes 2 on a three-byte cursor. -/
theorem c10_cursor_end_behaviour_witness :
    (take_byte ([] : List Nat)).2 = []
    ∧ (([5, 6] : List Nat).length = 2
        ∧ (take_bytes [5, 6, 7] 2).2.length + 2 = ([5, 6, 7] : List Nat).length) :=
  ⟨(c10_cursor_end_behaviour [] 0).1 rfl,
   (c10_cursor_end_behaviour [5, 6, 7] 2).2.2 [5, 6] rfl⟩

end Bird
